import Mathlib

/-!
Verification of the side-by-side diff rendering subsystem of `git-helper`
(`src/diff_viewer.c`), as described by the repository's specification.

The C code is shallowly embedded:

* C byte strings (`char *`) are modelled as `List Char`; a byte `b` with
  the high bit set (a negative `signed char` in C) corresponds to a
  character with `128 ≤ c.toNat`, so the C test `*src >= 32 || *src < 0`
  becomes `32 ≤ c.toNat || 128 ≤ c.toNat`.
* `strtok(text, "\n")` yields the maximal non-empty runs of non-newline
  bytes, modelled by `tokenize`.
* `strncpy(dst, src, N)` into a zero-initialised buffer of size `N + 1`
  stores the first `N` bytes, modelled by `List.take N`.
* C `int` counters are modelled by `Int` (line numbers, which use the
  sentinel `-1`) and `Nat` (the addition/deletion totals, which only ever
  increment); overflow of 32-bit counters is not modelled.
* `printf` output of `show_side_by_side_diff` is abstracted to a
  `RenderOut` value recording which decoration path the function takes and
  the structured data it prints (paths, totals, hunk banners, paired rows).
-/

/-! ## Data model (`diff_line_type_t`, `diff_line_t`, `diff_hunk_t`, `file_diff_t`) -/

/-- The `diff_line_type_t` enum of `diff_viewer.c`. `context` is the first
enumerator, so it has value `0`; the parser's guard `dl.type != 0` is
modelled by comparison with `.context`. -/
inductive diff_line_type_t where
  | context
  | added
  | removed
  | modified
  | header
  | hunk
  | binary
  | empty
deriving DecidableEq, Repr

/-- One `diff_line_t` record: line numbers are C `int`s (sentinel `-1` for
an absent number), the two content buffers are `char[1024]` and hold at
most 1023 bytes. -/
structure diff_line_t where
  type : diff_line_type_t
  left_num : Int
  right_num : Int
  left_content : List Char
  right_content : List Char
deriving DecidableEq, Repr

/-- The zero-initialised `diff_line_t dl = {0}` of the parser loop. -/
def dlZero : diff_line_t :=
  { type := .context, left_num := 0, right_num := 0, left_content := [], right_content := [] }

/-- One `diff_hunk_t`: parsed `@@` header fields, the raw header text
(`char[256]`, at most 255 bytes), and the hunk's line records.
The capacity bookkeeping fields of the C struct are not modelled. -/
structure diff_hunk_t where
  old_start : Int
  old_count : Int
  new_start : Int
  new_count : Int
  header : List Char
  lines : List diff_line_t
deriving DecidableEq, Repr

/-- The `file_diff_t` result of `parse_unified_diff`.  The path buffers are
`char[MAX_PATH_LEN]` with `MAX_PATH_LEN = 4096`. -/
structure file_diff_t where
  old_path : List Char
  new_path : List Char
  is_new : Bool
  is_deleted : Bool
  is_binary : Bool
  is_renamed : Bool
  hunks : List diff_hunk_t
  additions : Nat
  deletions : Nat
deriving DecidableEq, Repr

/-! ## Byte-string helpers -/

/-- Model of `strncmp(line, p, strlen(p)) == 0`: `begins p l` is true iff
`p` is a prefix of `l`. -/
def begins : List Char → List Char → Bool
  | [], _ => true
  | _ :: _, [] => false
  | p :: ps, c :: cs => p = c && begins ps cs

/-- Prefix `"diff --git"` (structural header, skipped by the parser). -/
def hdrDiffGit : List Char := ['d', 'i', 'f', 'f', ' ', '-', '-', 'g', 'i', 't']

/-- Prefix `"index "` (structural header, skipped by the parser). -/
def hdrIndex : List Char := ['i', 'n', 'd', 'e', 'x', ' ']

/-- Prefix `"---"` (old-path marker line). -/
def hdrOld : List Char := ['-', '-', '-']

/-- Prefix `"+++"` (new-path marker line). -/
def hdrNew : List Char := ['+', '+', '+']

/-- Prefix `"@@"` (hunk marker line). -/
def hdrHunk : List Char := ['@', '@']

/-! ## Text sanitizer (`sanitize_line`, lines 179-202) -/

/-- Core of `sanitize_line`: one pass over the bytes of the line, tracking
the current output column `col` (the C expression `dst - line`).  A tab is
replaced by spaces up to the next multiple-of-4 column, with the writes
bounded by `DIFF_MAX_LINE_LEN - 1 = 1023` output bytes; carriage returns
and newlines are dropped; a byte with `*src >= 32 || *src < 0` (printable
ASCII or a high byte of a multi-byte sequence) is kept; remaining control
bytes are dropped.

Fidelity note: the C routine rewrites the line in place, with `src` and
`dst` walking the same buffer.  Whenever a tab expands to two or more
spaces, `dst` overtakes `src`, the loop overwrites bytes it has not yet
read — including the terminator — and then keeps reading back the spaces
it just wrote, so on such lines the C pass overruns its buffer and does
not return (a latent defect of the program).  This definition gives the
per-byte transform of the loop as read from the original bytes; it
coincides with the C code exactly on every line containing no tab, where
`dst` never passes `src` and the pass is the plain filter of printable
and high bytes (`sanitizeCharsTabFree`).  Theorems whose truth requires
the sanitize pass to return are restricted to that tab-free domain. -/
def sanitizeChars : Nat → List Char → List Char
  | _, [] => []
  | col, c :: cs =>
    if c = '\t' then
      let k := min (4 - col % 4) (1023 - col)
      List.replicate k ' ' ++ sanitizeChars (col + k) cs
    else if c = '\r' || c = '\n' then
      sanitizeChars col cs
    else if 32 ≤ c.toNat || 128 ≤ c.toNat then
      c :: sanitizeChars (col + 1) cs
    else
      sanitizeChars col cs

/-- Model of `sanitize_line` on a whole line, starting at output column 0. -/
def sanitize_line (s : String) : String :=
  ⟨sanitizeChars 0 s.data⟩

/-! ## Visible length and fit-to-width (`visible_strlen`, `fit_to_width`,
lines 107-174) -/

/-- Scan of `visible_strlen`: count bytes outside escape sequences.  The
first argument is the `in_escape` state: an escape byte `'\x1b'` enters
escape mode, an `'m'` while in escape mode leaves it, and only bytes seen
outside escape mode are counted. -/
def visLen : Bool → List Char → Nat
  | _, [] => 0
  | e, c :: cs =>
    if c = '\x1b' then visLen true cs
    else if e && c = 'm' then visLen false cs
    else if !e then 1 + visLen false cs
    else visLen true cs

/-- The `in_escape` state left by scanning a byte sequence (same
transitions as `visLen`). -/
def escAfter : Bool → List Char → Bool
  | e, [] => e
  | e, c :: cs =>
    if c = '\x1b' then escAfter true cs
    else if e && c = 'm' then escAfter false cs
    else escAfter e cs

/-- Model of `visible_strlen` of a byte string (initial state: not in an escape). -/
def visible_strlen (cs : List Char) : Nat := visLen false cs

/-- The truncating copy loop of `fit_to_width`
(`while (copied < src_len && visible < width - 3) ...`): copy bytes while
fewer than `limit` visible bytes have been copied, updating the
`in_escape` state `e` and the visible counter `vis` exactly as the C loop
does after each copied byte. -/
def copyVis : Bool → Nat → Nat → List Char → List Char
  | _, _, _, [] => []
  | e, vis, limit, c :: cs =>
    if vis < limit then
      let e1 := if c = '\x1b' then true else e
      if e1 && c = 'm' then c :: copyVis false vis limit cs
      else if e1 then c :: copyVis e1 vis limit cs
      else c :: copyVis e1 (vis + 1) limit cs
    else []

/-- Model of `fit_to_width(src, dest, width, use_colors)`, returning the bytes
stored in `dest`.  For `width = 0` the C function stores the empty string;
for `visible_strlen(src) ≤ width` it copies `src` and pads with spaces to
`width` visible bytes; otherwise it copies until 3 short of `width`
visible bytes, appends `"..."`, and pads with spaces up to `width`.
(The `use_colors` parameter is unused, as in the C function.  The model
uses natural subtraction in `width - 3`, so it tracks the C code for the
widths `width ≥ 3` the specification speaks about.) -/
def fit_to_width (src : String) (width : Nat) (_use_colors : Bool) : List Char :=
  if width = 0 then []
  else if visible_strlen src.data ≤ width then
    src.data ++ List.replicate (width - visible_strlen src.data) ' '
  else
    let d := copyVis false 0 (width - 3) src.data ++ ['.', '.', '.']
    d ++ List.replicate (width - visible_strlen d) ' '

/-! ## Hunk-header parsing (`parse_hunk_header`, lines 211-240) -/

/-- The whitespace class skipped by `sscanf`'s `%d` conversion. -/
def isSpaceChar (c : Char) : Bool :=
  c = ' ' || c = '\t' || c = '\n' || c = '\x0b' || c = '\x0c' || c = '\r'

/-- Value of a digit string (most significant digit first). -/
def digitsVal (ds : List Char) : Nat :=
  ds.foldl (fun a c => a * 10 + (c.toNat - 48)) 0

/-- Digit run of `%d` after whitespace and sign handling: fails when no
digit is present (then `sscanf` assigns nothing), otherwise yields the
value and the rest of the input. -/
def scanDigits (cs : List Char) : Option (Nat × List Char) :=
  match cs.takeWhile Char.isDigit with
  | [] => none
  | ds => some (digitsVal ds, cs.dropWhile Char.isDigit)

/-- One `%d` conversion of `sscanf`: skip whitespace, accept an optional
sign, then require at least one digit. -/
def scanInt (cs : List Char) : Option (Int × List Char) :=
  match cs.dropWhile isSpaceChar with
  | '-' :: r => (scanDigits r).map (fun v => (-(v.1 : Int), v.2))
  | '+' :: r => (scanDigits r).map (fun v => ((v.1 : Int), v.2))
  | r => (scanDigits r).map (fun v => ((v.1 : Int), v.2))

/-- Model of `sscanf(p, "%d,%d", &a, &b)`: the first component is assigned when the
first `%d` matches; the second is assigned when it is followed by a
literal `','` and a second successful `%d`. -/
def scanPair (cs : List Char) : Option Int × Option Int :=
  match scanInt cs with
  | none => (none, none)
  | some (n, rest) =>
    match rest with
    | ',' :: rest2 =>
      match scanInt rest2 with
      | none => (some n, none)
      | some (m, _) => (some n, some m)
    | _ => (some n, none)

/-- Field extraction of `parse_hunk_header` for a line that begins with
`"@@"`: skip spaces after the marker, read `-old_start,old_count` when a
`'-'` is present (a variable not assigned by `sscanf` keeps its
initialiser: `old_start = 0`, `old_count = 1`), then search for the first
`'+'` (the C `strchr`) and read `+new_start,new_count` the same way.  The
raw line (at most 255 bytes, `strncpy` into `char header[256]`) is stored
as the hunk's header; the line list starts empty. -/
def parseHunkChars (l : List Char) : diff_hunk_t :=
  let p := (l.drop 2).dropWhile (fun c => decide (c = ' '))
  let afterDash : Option (List Char) :=
    match p with
    | '-' :: r => some r
    | _ => none
  let base := match afterDash with
    | some r => r
    | none => p
  let oldPair := match afterDash with
    | some r => scanPair r
    | none => (none, none)
  let plusRest := base.dropWhile (fun c => decide (c ≠ '+'))
  let newPair := match plusRest with
    | _ :: r => scanPair r
    | [] => (none, none)
  { old_start := oldPair.1.getD 0, old_count := oldPair.2.getD 1,
    new_start := newPair.1.getD 0, new_count := newPair.2.getD 1,
    header := l.take 255, lines := [] }

/-- Model of `parse_hunk_header` on the bytes of a line: returns `none` (C `false`)
when the line does not begin with `"@@"`, otherwise the parsed hunk. -/
def parse_hunk_header_chars (l : List Char) : Option diff_hunk_t :=
  if begins hdrHunk l then some (parseHunkChars l) else none

/-- Model of `parse_hunk_header` on a whole line given as a string. -/
def parse_hunk_header (line : String) : Option diff_hunk_t :=
  parse_hunk_header_chars line.data

/-! ## Tokenization (`strtok(text_copy, "\n")`, lines 307 and 381) -/

/-- Accumulator version of the `strtok` loop: `acc` holds the bytes of the
current token in reverse. -/
def tokAux : List Char → List Char → List (List Char)
  | acc, [] => if acc = [] then [] else [acc.reverse]
  | acc, c :: cs =>
    if c = '\n' then
      if acc = [] then tokAux [] cs else acc.reverse :: tokAux [] cs
    else
      tokAux (c :: acc) cs

/-- Model of `strtok(·, "\n")` iterated to exhaustion: the maximal non-empty runs
of non-newline bytes, in order.  Empty lines produce no token. -/
def tokenize (cs : List Char) : List (List Char) := tokAux [] cs

/-- The token sequence the parser loop sees for an input string. -/
def diffLines (s : String) : List (List Char) := tokenize s.data

/-! ## The parser (`parse_unified_diff`, lines 281-386) -/

/-- Parser loop state: the `file_diff_t` under construction (holding the
already-started hunks except the current one), the current hunk
(`current_hunk`, `none` before the first `@@` marker), and the running
line counters `left_num` / `right_num`. In the C code `current_hunk`
points into the hunk array and is mutated in place; the model keeps the
current hunk separate and appends it when the next hunk starts and at the
end of the input. -/
structure PState where
  diff : file_diff_t
  curr : Option diff_hunk_t
  left_num : Int
  right_num : Int
deriving DecidableEq, Repr

/-- The `calloc`-zeroed initial state of `parse_unified_diff`. -/
def initPState : PState :=
  { diff := { old_path := [], new_path := [], is_new := false, is_deleted := false,
              is_binary := false, is_renamed := false, hunks := [], additions := 0,
              deletions := 0 },
    curr := none, left_num := 0, right_num := 0 }

/-- One iteration of the parser loop on one token, following the C branch
order exactly: `diff --git` / `index ` headers are skipped; `---` / `+++`
set the path fields (dropping a leading `a/` or `b/`, `strncpy` bound
`MAX_PATH_LEN - 1 = 4095`); `@@` starts a new hunk and resets the
counters; any other line is classified by its first byte while a current
hunk exists.  Content is sanitized (in place, on the working copy) and
stored through `strncpy(..., DIFF_MAX_LINE_LEN - 1 = 1023)`.  A line whose
first byte is `'\\'` fills a `dl` with `type = DIFF_LINE_CONTEXT = 0` but
is then discarded by the guard `dl.type != 0 || prefix == ' '`, exactly as
lines with unrecognized prefixes are. -/
def processLine (st : PState) (l : List Char) : PState :=
  if begins hdrDiffGit l || begins hdrIndex l then
    st
  else if begins hdrOld l then
    if 4 < l.length then
      let path := l.drop 4
      let path := if begins ['a', '/'] path then path.drop 2 else path
      { st with diff := { st.diff with old_path := path.take 4095 } }
    else st
  else if begins hdrNew l then
    if 4 < l.length then
      let path := l.drop 4
      let path := if begins ['b', '/'] path then path.drop 2 else path
      { st with diff := { st.diff with new_path := path.take 4095 } }
    else st
  else if begins hdrHunk l then
    let h := parseHunkChars l
    { diff := { st.diff with hunks := st.diff.hunks ++ st.curr.toList },
      curr := some h, left_num := h.old_start, right_num := h.new_start }
  else
    match st.curr with
    | none => st
    | some h =>
      match l with
      | [] => st
      | p :: content0 =>
        let content := sanitizeChars 0 content0
        if p = '-' then
          let dl : diff_line_t :=
            { type := .removed, left_num := st.left_num, right_num := -1,
              left_content := content.take 1023, right_content := [] }
          { st with curr := some { h with lines := h.lines ++ [dl] },
                    left_num := st.left_num + 1,
                    diff := { st.diff with deletions := st.diff.deletions + 1 } }
        else if p = '+' then
          let dl : diff_line_t :=
            { type := .added, left_num := -1, right_num := st.right_num,
              left_content := [], right_content := content.take 1023 }
          { st with curr := some { h with lines := h.lines ++ [dl] },
                    right_num := st.right_num + 1,
                    diff := { st.diff with additions := st.diff.additions + 1 } }
        else if p = ' ' then
          let dl : diff_line_t :=
            { type := .context, left_num := st.left_num, right_num := st.right_num,
              left_content := content.take 1023, right_content := content.take 1023 }
          { st with curr := some { h with lines := h.lines ++ [dl] },
                    left_num := st.left_num + 1, right_num := st.right_num + 1 }
        else
          st

/-- The parser loop over all tokens. -/
def processLines (st : PState) (ls : List (List Char)) : PState :=
  ls.foldl processLine st

/-- Model of `parse_unified_diff`: `NULL` or empty input yields no result;
otherwise the tokens of the working copy are processed in order and the
current hunk (mutated in place in the C array) is part of the final hunk
list. -/
def parse_unified_diff (diff_text : String) : Option file_diff_t :=
  if diff_text = "" then none
  else
    let st := processLines initPState (diffLines diff_text)
    some { st.diff with hunks := st.diff.hunks ++ st.curr.toList }

/-! ## Line pairing (`show_side_by_side_diff` loop, lines 574-637) -/

/-- The combined row the pairing loop builds for pair index `p` from the
removed run `rs` and the added run `as`: starting from `{0}`, the left
side is filled from `rs[p]` when `p < R` (making the row `removed`), the
right side from `as[p]` when `p < A` (upgrading a `removed` row to
`modified`, otherwise making the row `added`). -/
def combineAt (rs as : List diff_line_t) (p : Nat) : diff_line_t :=
  let c1 :=
    if h : p < rs.length then
      { dlZero with type := .removed, left_num := (rs.get ⟨p, h⟩).left_num,
                    left_content := (rs.get ⟨p, h⟩).left_content.take 1023 }
    else dlZero
  if h : p < as.length then
    { c1 with type := if c1.type = .removed then .modified else .added,
              right_num := (as.get ⟨p, h⟩).right_num,
              right_content := (as.get ⟨p, h⟩).right_content.take 1023 }
  else c1

theorem lenDropWhileLe {α : Type} (p : α → Bool) (l : List α) :
    (l.dropWhile p).length ≤ l.length := by
  induction l with
  | nil => simp [List.dropWhile]
  | cons a l ih =>
    by_cases h : p a
    · simpa [List.dropWhile_cons, h] using Nat.le_succ_of_le ih
    · simp [List.dropWhile_cons, h]

/-- The row sequence the hunk display loop prints: on a removed row,
collect the maximal run of removed rows, then the maximal run of added
rows immediately following, and emit `max(R, A)` combined rows; any other
row is printed as-is. -/
def pairRows : List diff_line_t → List diff_line_t
  | [] => []
  | l :: ls =>
    if l.type = diff_line_type_t.removed then
      let rs := l :: ls.takeWhile (fun x => decide (x.type = diff_line_type_t.removed))
      let rest1 := ls.dropWhile (fun x => decide (x.type = diff_line_type_t.removed))
      let as := rest1.takeWhile (fun x => decide (x.type = diff_line_type_t.added))
      let rest2 := rest1.dropWhile (fun x => decide (x.type = diff_line_type_t.added))
      (List.range (max rs.length as.length)).map (combineAt rs as) ++ pairRows rest2
    else
      l :: pairRows ls
termination_by ls => ls.length
decreasing_by
  · simp only [List.length_cons]
    exact Nat.lt_succ_of_le (Nat.le_trans (lenDropWhileLe _ _) (lenDropWhileLe _ _))
  · simp

/-! ## The compositor (`show_side_by_side_diff`, lines 525-646) -/

/-- Structural abstraction of the output of `show_side_by_side_diff`:
`noDiff` is the early `PRINT_INFO("No differences to display")` return for
null/empty input; `raw` is the `printf("%s\n", diff_text)` fallback when
the parser returns no result; `rendered` records the header block (paths
and totals, wrapped by the top/bottom rules) followed by one banner and
one paired row sequence per hunk, and the footer rule. -/
inductive RenderOut where
  | noDiff : RenderOut
  | raw : String → RenderOut
  | rendered : List Char → List Char → Nat → Nat →
      List (List Char × List diff_line_t) → RenderOut
deriving DecidableEq, Repr

/-- Model of `show_side_by_side_diff` (the display settings only affect spacing and
colors, not which of the three output shapes is produced, and are not
modelled).  A `none` input models a `NULL` pointer. -/
def show_side_by_side_diff (diff_text : Option String) : RenderOut :=
  match diff_text with
  | none => .noDiff
  | some s =>
    if s = "" then .noDiff
    else
      match parse_unified_diff s with
      | none => .raw s
      | some d =>
        .rendered d.old_path d.new_path d.additions d.deletions
          (d.hunks.map (fun h => (h.header, pairRows h.lines)))

/-! ## Memory model for the frame claim -/

/-- The working copy's tokens after the parse loop: `strtok` has replaced
the newline after each token by a terminator inside the copy, and
`sanitize_line` (line 349) has rewritten, in place and inside the copy,
the bytes after the prefix byte of every line reaching the content branch
(every line while a current hunk exists that is not matched by an earlier
branch).  A token is modelled up to its (possibly moved) terminator. -/
def copyTokensAfter : Bool → List (List Char) → List (List Char)
  | _, [] => []
  | inH, l :: ls =>
    if begins hdrDiffGit l || begins hdrIndex l || begins hdrOld l || begins hdrNew l then
      l :: copyTokensAfter inH ls
    else if begins hdrHunk l then
      l :: copyTokensAfter true ls
    else if inH then
      (match l with
       | [] => l
       | p :: content0 => p :: sanitizeChars 0 content0) :: copyTokensAfter inH ls
    else
      l :: copyTokensAfter inH ls

/-- Memory-explicit `parse_unified_diff`: the function duplicates its
input (`strdup`, line 297) and every in-place write — `strtok`'s
terminators and `sanitize_line`'s rewrites (line 349) — targets that
working copy, which is freed before returning.  The triple returned is
(parse result, the caller's `diff_text` buffer after the call, the
working copy's tokens after all in-place writes). -/
def parse_unified_diff_mem (diff_text : String) :
    Option file_diff_t × String × List (List Char) :=
  if diff_text = "" then (none, diff_text, [])
  else
    (parse_unified_diff diff_text, diff_text,
      copyTokensAfter false (tokenize diff_text.data))

/-- Memory-explicit `show_side_by_side_diff`: the renderer reads
`diff_text` (a `const char *`) and writes only to the terminal; the only
in-place writes of the whole call happen inside `parse_unified_diff_mem`'s
working copy.  Returns the render output and the caller's buffer after
the call. -/
def show_side_by_side_diff_mem (diff_text : Option String) :
    RenderOut × Option String :=
  (show_side_by_side_diff diff_text, diff_text)

/-! ## Claim-side counting definitions -/

/-- Number of lines that are `'+'`-prefixed content lines inside hunks in
the sense of the claims: lines occurring after some `@@` marker line whose
first byte is `'+'`.  The flag records whether an `@@` line has been
seen. -/
def countPlus : Bool → List (List Char) → Nat
  | _, [] => 0
  | inH, l :: ls =>
    (if inH && begins ['+'] l then 1 else 0) + countPlus (inH || begins hdrHunk l) ls

/-- Number of `'-'`-prefixed content lines inside hunks (see `countPlus`). -/
def countMinus : Bool → List (List Char) → Nat
  | _, [] => 0
  | inH, l :: ls =>
    (if inH && begins ['-'] l then 1 else 0) + countMinus (inH || begins hdrHunk l) ls

/-- Side condition for the corrected counting claim: no line inside a hunk
begins with `"+++"` or `"---"` (the parser treats such lines as path
markers even inside a hunk, because those branches are tested first). -/
def hunkContentOk : Bool → List (List Char) → Bool
  | _, [] => true
  | inH, l :: ls =>
    (!inH || (!begins hdrNew l && !begins hdrOld l)) &&
      hunkContentOk (inH || begins hdrHunk l) ls

/-- A line reaches the `sanitize_line` call (line 349) exactly when a
current hunk exists and no earlier branch of the parser loop consumed
the line. -/
def reachesSanitize (inH : Bool) (l : List Char) : Bool :=
  inH && !(begins hdrDiffGit l || begins hdrIndex l) && !begins hdrOld l &&
    !begins hdrNew l && !begins hdrHunk l

/-- Side condition marking the domain on which the in-place C sanitize
pass is well defined (see the fidelity note on `sanitizeChars`): every
line that reaches `sanitize_line` carries no tab after its prefix byte.
The flag records whether an `@@` marker has been seen. -/
def hunkContentTabFree : Bool → List (List Char) → Bool
  | _, [] => true
  | inH, l :: ls =>
    (!reachesSanitize inH l || !(l.drop 1).contains '\t') &&
      hunkContentTabFree (inH || begins hdrHunk l) ls

/-- All line records of all hunks of the parse result of an input. -/
def allParsedLines (s : String) : List diff_line_t :=
  match parse_unified_diff s with
  | none => []
  | some d => d.hunks.flatMap diff_hunk_t.lines

/-- The hunks of the parse result of an input. -/
def parsedHunks (s : String) : List diff_hunk_t :=
  match parse_unified_diff s with
  | none => []
  | some d => d.hunks

/-! ## Helper lemmas about the sanitizer -/

theorem sanitizeCharsGe32 :
    ∀ (cs : List Char) (col : Nat) (c : Char), c ∈ sanitizeChars col cs → 32 ≤ c.toNat := by
  intro cs
  induction cs with
  | nil => intro col c h; simp [sanitizeChars] at h
  | cons a l ih =>
    intro col c h
    unfold sanitizeChars at h
    split_ifs at h with h1 h2 h3
    · rcases List.mem_append.mp h with h4 | h4
      · have := List.eq_of_mem_replicate h4
        subst this; decide
      · exact ih _ _ h4
    · exact ih _ _ h
    · simp only [Bool.or_eq_true, decide_eq_true_eq] at h3
      rcases List.mem_cons.mp h with h4 | h4
      · subst h4; omega
      · exact ih _ _ h4
    · exact ih _ _ h

theorem sanitizeCharsId :
    ∀ (cs : List Char) (col : Nat), (∀ c ∈ cs, 32 ≤ c.toNat) → sanitizeChars col cs = cs := by
  intro cs
  induction cs with
  | nil => intro col _; rfl
  | cons a l ih =>
    intro col h
    have ha : 32 ≤ a.toNat := h a (List.mem_cons_self a l)
    unfold sanitizeChars
    split_ifs with g1 g2 g3
    · exact absurd ha (by rw [g1]; decide)
    · simp only [Bool.or_eq_true, decide_eq_true_eq] at g2
      rcases g2 with rfl | rfl <;> exact absurd ha (by decide)
    · rw [ih _ (fun c hc => h c (List.mem_cons_of_mem a hc))]
    · simp only [Bool.or_eq_true, decide_eq_true_eq, not_or] at g3
      omega

theorem sanitizeCharsTabFree :
    ∀ (cs : List Char) (col : Nat), (∀ c ∈ cs, c ≠ '\t') →
      sanitizeChars col cs =
        cs.filter (fun c => decide (32 ≤ c.toNat) || decide (128 ≤ c.toNat)) := by
  intro cs
  induction cs with
  | nil => intro col _; rfl
  | cons a l ih =>
    intro col h
    have ha : ¬ a = '\t' := h a (List.mem_cons_self a l)
    have hrest := ih (col + 1) (fun c hc => h c (List.mem_cons_of_mem a hc))
    have hrest0 := ih col (fun c hc => h c (List.mem_cons_of_mem a hc))
    have hfc : (a :: l).filter (fun c => decide (32 ≤ c.toNat) || decide (128 ≤ c.toNat)) =
        if (decide (32 ≤ a.toNat) || decide (128 ≤ a.toNat)) = true then
          a :: l.filter (fun c => decide (32 ≤ c.toNat) || decide (128 ≤ c.toNat))
        else l.filter (fun c => decide (32 ≤ c.toNat) || decide (128 ≤ c.toNat)) := by
      rw [List.filter_cons]
    unfold sanitizeChars
    rw [if_neg ha]
    by_cases h2 : (a = '\r' || a = '\n') = true
    · have hpred : (decide (32 ≤ a.toNat) || decide (128 ≤ a.toNat)) = false := by
        rcases Bool.or_eq_true_iff.mp h2 with h' | h' <;>
          (simp only [decide_eq_true_eq] at h'; subst h'; decide)
      rw [if_pos h2, hfc, if_neg (by simp [hpred]), hrest0]
    · by_cases h3 : (decide (32 ≤ a.toNat) || decide (128 ≤ a.toNat)) = true
      · rw [if_neg h2, if_pos h3, hfc, if_pos h3, hrest]
      · rw [if_neg h2, if_neg h3, hfc, if_neg h3, hrest0]

/-- C7: the sanitization transform is idempotent — applying `sanitize_line`
to its own output returns that output unchanged, because the output
contains only bytes of value at least 32 (spaces from tab expansion,
printable bytes, and high bytes), all of which pass through unchanged. -/
theorem c7_sanitize_idempotent (s : String) :
    sanitize_line (sanitize_line s) = sanitize_line s := by
  unfold sanitize_line
  exact congrArg String.mk
    (sanitizeCharsId _ 0 (fun c hc => sanitizeCharsGe32 _ 0 c hc))

/-- C8: a `NULL` or empty input makes `show_side_by_side_diff` take the
early `PRINT_INFO("No differences to display")` return, emitting no
header, hunk, or footer output. -/
theorem c8_empty_no_output :
    show_side_by_side_diff none = RenderOut.noDiff ∧
      show_side_by_side_diff (some "") = RenderOut.noDiff :=
  ⟨rfl, rfl⟩

/-- C9: parsing and rendering never modify the caller's diff text: all
in-place writes (`strtok` tokenization, `sanitize_line`) target the
`strdup` working copy, so after `parse_unified_diff` and
`show_side_by_side_diff` return, the caller's buffer holds its original
bytes. -/
theorem c9_input_unmodified (s : String) (t : Option String) :
    (parse_unified_diff_mem s).2.1 = s ∧ (show_side_by_side_diff_mem t).2 = t := by
  constructor
  · unfold parse_unified_diff_mem
    split_ifs <;> rfl
  · rfl

/-! ## Counterexamples -/

/-- C1 counterexample: for the non-empty input `"plain text\n"`, which
contains no line beginning with `"@@"`, the parser does NOT return "no
structured result" — it returns a `file_diff_t` with zero hunks — and the
compositor does NOT echo the raw text: it emits the header block (empty
paths, `+0 -0` totals) and the footer rule around zero hunks. -/
theorem c1_counterexample :
    parse_unified_diff "plain text\n" ≠ none ∧
      show_side_by_side_diff (some "plain text\n") =
        RenderOut.rendered [] [] 0 0 [] ∧
      show_side_by_side_diff (some "plain text\n") ≠ RenderOut.raw "plain text\n" := by
  refine ⟨by decide, by decide, by decide⟩

/-- C2 counterexample: for the input consisting of a single escape byte
(an unterminated escape sequence) and target width `W = 3`, the fitted
result has visible length 0, not 3: the scan never leaves escape mode, so
the padding spaces are not counted as visible. -/
theorem c2_counterexample :
    visible_strlen (fit_to_width "\x1b" 3 true) ≠ 3 := by decide

/-- C4 counterexample: the input `"@@ -1 +1 @@\n--- x"` has one
`'-'`-prefixed content line inside a hunk (`M = 1`), but the parser
classifies any line beginning `"---"` as an old-path marker — even inside
a hunk — so the parsed `deletions` counter is 0, not `M`. -/
theorem c4_counterexample :
    ¬ ((parse_unified_diff "@@ -1 +1 @@\n--- x").map file_diff_t.deletions =
        some (countMinus false (diffLines "@@ -1 +1 @@\n--- x"))) := by decide

/-- C5 counterexample: for the input `"@@ -0,0 +1,1 @@\n x"` (a hunk header
with `old_start = 0`, as produced for new files), the parsed Context line
carries `left_num = 0`, so it is false that every Context line has both
line numbers set positive. -/
theorem c5_counterexample :
    ¬ (∀ l ∈ allParsedLines "@@ -0,0 +1,1 @@\n x",
        l.type = diff_line_type_t.context → 1 ≤ l.left_num ∧ 1 ≤ l.right_num) := by
  decide

/-! ## Visible-length lemmas and the fit-to-width theorem -/

theorem visLenAppend :
    ∀ (xs : List Char) (e : Bool) (ys : List Char),
      visLen e (xs ++ ys) = visLen e xs + visLen (escAfter e xs) ys := by
  intro xs
  induction xs with
  | nil => intro e ys; simp [visLen, escAfter]
  | cons c l ih =>
    intro e ys
    by_cases h1 : c = '\x1b'
    · simp [visLen, escAfter, h1, ih]
    · cases e with
      | false => simp [visLen, escAfter, h1, ih, Nat.add_assoc]
      | true =>
        by_cases h3 : c = 'm'
        · simp [visLen, escAfter, h1, h3, ih]
        · simp [visLen, escAfter, h1, h3, ih]

theorem visLenReplicateSpace (n : Nat) :
    visLen false (List.replicate n ' ') = n := by
  induction n with
  | zero => rfl
  | succ k ih => simp [List.replicate_succ, visLen, ih]; omega

theorem escAfterAppend :
    ∀ (xs : List Char) (e : Bool) (ys : List Char),
      escAfter e (xs ++ ys) = escAfter (escAfter e xs) ys := by
  intro xs
  induction xs with
  | nil => intro e ys; simp [escAfter]
  | cons c l ih =>
    intro e ys
    by_cases h1 : c = '\x1b'
    · simp [escAfter, h1, ih]
    · cases e with
      | false => simp [escAfter, h1, ih]
      | true =>
        by_cases h3 : c = 'm'
        · simp [escAfter, h1, h3, ih]
        · simp [escAfter, h1, h3, ih]

theorem copyVisSpec :
    ∀ (cs : List Char) (e : Bool) (vis limit : Nat),
      vis ≤ limit → limit ≤ vis + visLen e cs →
      visLen e (copyVis e vis limit cs) = limit - vis ∧
        escAfter e (copyVis e vis limit cs) = (if vis < limit then false else e) := by
  intro cs
  induction cs with
  | nil =>
    intro e vis limit h1 h2
    simp [visLen] at h2
    have hv : ¬ vis < limit := by omega
    simp [copyVis, visLen, escAfter, hv]
    omega
  | cons c l ih =>
    intro e vis limit h1 h2
    by_cases hv : vis < limit
    · by_cases hesc : c = '\x1b'
      · -- entering (or staying in) escape mode; the byte is copied, not counted
        have hm : ¬ c = 'm' := by rw [hesc]; decide
        have h2' : limit ≤ vis + visLen true l := by
          simpa [visLen, hesc] using h2
        have := ih true vis limit (Nat.le_of_lt hv) h2'
        simp only [copyVis, if_pos hv, if_pos hesc, hm, Bool.and_false,
          Bool.false_eq_true, if_false, if_true] at *
        simp [visLen, escAfter, hesc, this.1, this.2, hv]
      · cases e with
        | true =>
          by_cases hm : c = 'm'
          · -- leaving escape mode
            have h2' : limit ≤ vis + visLen false l := by
              simpa [visLen, hesc, hm] using h2
            have := ih false vis limit (Nat.le_of_lt hv) h2'
            simp [copyVis, hv, hesc, hm, visLen, escAfter, this.1, this.2]
          · -- inside an escape sequence
            have h2' : limit ≤ vis + visLen true l := by
              simpa [visLen, hesc, hm] using h2
            have := ih true vis limit (Nat.le_of_lt hv) h2'
            simp [copyVis, hv, hesc, hm, visLen, escAfter, this.1, this.2, hv]
        | false =>
          -- a visible byte
          have h2' : limit ≤ (vis + 1) + visLen false l := by
            have : visLen false (c :: l) = 1 + visLen false l := by
              simp [visLen, hesc]
            omega
          have := ih false (vis + 1) limit (by omega) h2'
          have hres : visLen false (copyVis false (vis + 1) limit l) = limit - (vis + 1) :=
            this.1
          have hesc2 : escAfter false (copyVis false (vis + 1) limit l) = false := by
            rw [this.2]; exact ite_self false
          simp [copyVis, hv, hesc, visLen, escAfter, hres, hesc2]
          omega
    · simp [copyVis, hv, visLen, escAfter]
      omega

/-- C2 (amended): for every input string whose escape-sequence scan ends
outside an escape sequence (every escape byte is eventually followed by an
`'m'`) and every target width `W ≥ 3`, the fitted result has visible
length exactly `W`.  The original universally quantified claim fails for
strings ending inside an unterminated escape sequence
(`c2_counterexample`): the padding spaces are then appended while the
visible-length scan is still in escape mode, so they are not counted. -/
theorem c2_fit_to_width_visible (src : String) (width : Nat)
    (hesc : escAfter false src.data = false) (hw : 3 ≤ width) :
    visible_strlen (fit_to_width src width true) = width := by
  unfold fit_to_width visible_strlen
  have hw0 : ¬ width = 0 := by omega
  rw [if_neg hw0]
  by_cases hle : visLen false src.data ≤ width
  · rw [if_pos hle, visLenAppend, hesc, visLenReplicateSpace]
    omega
  · rw [if_neg hle]
    have hcv := copyVisSpec src.data false 0 (width - 3) (Nat.zero_le _) (by omega)
    have hA : visLen false (copyVis false 0 (width - 3) src.data) = width - 3 := by
      simpa using hcv.1
    have hB : escAfter false (copyVis false 0 (width - 3) src.data) = false := by
      rw [hcv.2]; exact ite_self false
    simp only []
    rw [visLenAppend, visLenAppend, hA, hB]
    have hdots : visLen false ['.', '.', '.'] = 3 := by decide
    have hdotsEsc : escAfter false ['.', '.', '.'] = false := by decide
    rw [hdots, escAfterAppend, hB, hdotsEsc, visLenReplicateSpace]
    omega

/-- C2 witness: the theorem applied at `src = "hello"`, `W = 3`. -/
theorem c2_witness :
    escAfter false "hello".data = false ∧ (3 : Nat) ≤ 3 ∧
      visible_strlen (fit_to_width "hello" 3 true) = 3 :=
  ⟨by decide, by decide, c2_fit_to_width_visible "hello" 3 (by decide) (by decide)⟩

/-! ## Hunk-header lemmas -/

theorem digitNotSpace (c : Char) (h : c.isDigit = true) : isSpaceChar c = false := by
  by_contra hs
  rw [Bool.not_eq_false] at hs
  unfold isSpaceChar at hs
  simp only [Bool.or_eq_true, decide_eq_true_eq] at hs
  rcases hs with ((((rfl | rfl) | rfl) | rfl) | rfl) | rfl <;> exact absurd h (by decide)

theorem scanIntDigitsSpace (ds r : List Char) (hne : ds ≠ [])
    (hd : ∀ c ∈ ds, c.isDigit) :
    scanInt (ds ++ ' ' :: r) = some ((digitsVal ds : Int), ' ' :: r) := by
  obtain ⟨d, ds', rfl⟩ := List.exists_cons_of_ne_nil hne
  have hd0 : d.isDigit := hd d (List.mem_cons_self d ds')
  have hd' : ∀ c ∈ ds', c.isDigit := fun c hc => hd c (List.mem_cons_of_mem d hc)
  have hnspace : isSpaceChar d = false := digitNotSpace d hd0
  have htake : ((d :: ds') ++ ' ' :: r).takeWhile Char.isDigit = d :: ds' := by
    rw [List.takeWhile_append_of_pos hd, List.takeWhile_cons_of_neg (by decide),
      List.append_nil]
  have hdrop : ((d :: ds') ++ ' ' :: r).dropWhile Char.isDigit = ' ' :: r := by
    rw [List.dropWhile_append_of_pos hd, List.dropWhile_cons_of_neg (by decide)]
  have hdm : d ≠ '-' := by rintro rfl; exact absurd hd0 (by decide)
  have hdp : d ≠ '+' := by rintro rfl; exact absurd hd0 (by decide)
  simp only [List.cons_append] at htake hdrop ⊢
  unfold scanInt
  rw [List.dropWhile_cons_of_neg (by simp [hnspace])]
  split
  · rename_i heq
    injection heq with h1 _
    exact absurd h1 hdm
  · rename_i heq
    injection heq with h1 _
    exact absurd h1 hdp
  · unfold scanDigits
    rw [htake, hdrop]
    simp

theorem scanPairDigitsSpace (ds r : List Char) (hne : ds ≠ [])
    (hd : ∀ c ∈ ds, c.isDigit) :
    scanPair (ds ++ ' ' :: r) = (some (digitsVal ds : Int), none) := by
  unfold scanPair
  rw [scanIntDigitsSpace ds r hne hd]
  rfl

theorem parseHunkCharsDefaultCounts (ds : List Char) (hne : ds ≠ [])
    (hd : ∀ c ∈ ds, c.isDigit) :
    (parseHunkChars
        ('@' :: '@' :: ' ' :: '-' :: (ds ++ ' ' :: '+' :: (ds ++ [' ', '@', '@'])))).old_count
        = 1 ∧
      (parseHunkChars
        ('@' :: '@' :: ' ' :: '-' :: (ds ++ ' ' :: '+' :: (ds ++ [' ', '@', '@'])))).new_count
        = 1 := by
  have hplus : ∀ c ∈ ds, (fun c => decide (c ≠ '+')) c = true := by
    intro c hc
    have : c ≠ '+' := by
      rintro rfl; exact absurd (hd _ hc) (by decide)
    simp [this]
  have e2 : (' ' :: '-' :: (ds ++ ' ' :: '+' :: (ds ++ [' ', '@', '@']))).dropWhile
      (fun c => decide (c = ' ')) = '-' :: (ds ++ ' ' :: '+' :: (ds ++ [' ', '@', '@'])) := by
    rw [List.dropWhile_cons_of_pos (by decide), List.dropWhile_cons_of_neg (by decide)]
  have e3 : (ds ++ ' ' :: '+' :: (ds ++ [' ', '@', '@'])).dropWhile
      (fun c => decide (c ≠ '+')) = '+' :: (ds ++ [' ', '@', '@']) := by
    rw [List.dropWhile_append_of_pos hplus, List.dropWhile_cons_of_pos (by decide),
      List.dropWhile_cons_of_neg (by decide)]
  have hpair1 : scanPair (ds ++ ' ' :: '+' :: (ds ++ [' ', '@', '@'])) =
      (some (digitsVal ds : Int), none) := scanPairDigitsSpace ds _ hne hd
  have hpair2 : scanPair (ds ++ [' ', '@', '@']) = (some (digitsVal ds : Int), none) := by
    rw [show (ds ++ [' ', '@', '@'] : List Char) = ds ++ ' ' :: ['@', '@'] from rfl]
    exact scanPairDigitsSpace ds _ hne hd
  unfold parseHunkChars
  rw [show ('@' :: '@' :: ' ' :: '-' ::
      (ds ++ ' ' :: '+' :: (ds ++ [' ', '@', '@']))).drop 2 =
      ' ' :: '-' :: (ds ++ ' ' :: '+' :: (ds ++ [' ', '@', '@'])) from rfl]
  rw [e2]
  simp only [e3, hpair1, hpair2]
  exact ⟨rfl, rfl⟩

/-- C6: the hunk header `"@@ -3,2 +3,4 @@"` parses to
`old_start = 3, old_count = 2, new_start = 3, new_count = 4`; the header
`"@@ -1 +1 @@"` with omitted comma-counts parses with both counts
defaulting to 1; and in general for any non-empty digit string `ds`, the
header `"@@ -<ds> +<ds> @@"` parses with `old_count = new_count = 1`,
because the `sscanf("%d,%d")` pattern assigns no count when no comma
follows the first integer and the count keeps its initialiser 1. -/
theorem c6_hunk_header :
    (parse_hunk_header "@@ -3,2 +3,4 @@").map
        (fun h => (h.old_start, h.old_count, h.new_start, h.new_count)) =
      some (3, 2, 3, 4) ∧
    (parse_hunk_header "@@ -1 +1 @@").map
        (fun h => (h.old_start, h.old_count, h.new_start, h.new_count)) =
      some (1, 1, 1, 1) ∧
    ∀ (ds : List Char), ds ≠ [] → (∀ c ∈ ds, c.isDigit) →
      (parse_hunk_header_chars
          ('@' :: '@' :: ' ' :: '-' :: (ds ++ ' ' :: '+' :: (ds ++ [' ', '@', '@'])))).map
        (fun h => (h.old_count, h.new_count)) = some (1, 1) := by
  refine ⟨by decide, by decide, ?_⟩
  intro ds hne hd
  have hkey := parseHunkCharsDefaultCounts ds hne hd
  unfold parse_hunk_header_chars
  rw [if_pos (by rfl)]
  simp [hkey.1, hkey.2]

/-- C6 witness: the general default-count clause applied at the concrete
digit string `"7"`. -/
theorem c6_witness :
    (parse_hunk_header_chars
        ('@' :: '@' :: ' ' :: '-' :: (['7'] ++ ' ' :: '+' :: (['7'] ++ [' ', '@', '@'])))).map
      (fun h => (h.old_count, h.new_count)) = some (1, 1) :=
  c6_hunk_header.2.2 ['7'] (by decide) (by decide)

/-! ## Pairing-engine theorem -/

/-- C3: whenever the pairing loop encounters a maximal contiguous run of
`R ≥ 1` removed rows immediately followed by a maximal contiguous run of
`A ≥ 0` added rows, it emits exactly `max(R, A)` combined display rows and
then continues with the remainder; row `p` takes the `p`-th removed line's
content and left number when `p < R` and the `p`-th added line's content
and right number when `p < A`; a row with both sides populated is
`modified`, a left-only row is `removed`, a right-only row is `added`.
(The hypotheses on content lengths record the `char[1024]` representation
invariant of `diff_line_t`, under which the `strncpy(..., 1023)` copies
are complete.) -/
theorem c3_pairing_runs (rs as rest : List diff_line_t)
    (hne : rs ≠ [])
    (hr : ∀ l ∈ rs, l.type = diff_line_type_t.removed)
    (ha : ∀ l ∈ as, l.type = diff_line_type_t.added)
    (hrest : ∀ x, rest.head? = some x →
      x.type ≠ diff_line_type_t.removed ∧ x.type ≠ diff_line_type_t.added)
    (hlen1 : ∀ l ∈ rs, l.left_content.length ≤ 1023)
    (hlen2 : ∀ l ∈ as, l.right_content.length ≤ 1023) :
    pairRows (rs ++ as ++ rest) =
        (List.range (max rs.length as.length)).map (combineAt rs as) ++ pairRows rest ∧
      ((List.range (max rs.length as.length)).map (combineAt rs as)).length =
        max rs.length as.length ∧
      (∀ p, ∀ hp : p < rs.length, ∀ hq : p < as.length,
        combineAt rs as p =
          { type := .modified, left_num := (rs.get ⟨p, hp⟩).left_num,
            right_num := (as.get ⟨p, hq⟩).right_num,
            left_content := (rs.get ⟨p, hp⟩).left_content,
            right_content := (as.get ⟨p, hq⟩).right_content }) ∧
      (∀ p, ∀ hp : p < rs.length, as.length ≤ p →
        combineAt rs as p =
          { type := .removed, left_num := (rs.get ⟨p, hp⟩).left_num, right_num := 0,
            left_content := (rs.get ⟨p, hp⟩).left_content, right_content := [] }) ∧
      (∀ p, ∀ hq : p < as.length, rs.length ≤ p →
        combineAt rs as p =
          { type := .added, left_num := 0, right_num := (as.get ⟨p, hq⟩).right_num,
            left_content := [], right_content := (as.get ⟨p, hq⟩).right_content }) := by
  refine ⟨?_, by simp, ?_, ?_, ?_⟩
  · -- run decomposition
    obtain ⟨r0, rs', rfl⟩ := List.exists_cons_of_ne_nil hne
    have hpr : ∀ x ∈ rs',
        (fun x => decide (x.type = diff_line_type_t.removed)) x = true := by
      intro x hx; simp [hr x (List.mem_cons_of_mem r0 hx)]
    have hqa : ∀ x ∈ as,
        (fun x => decide (x.type = diff_line_type_t.added)) x = true := by
      intro x hx; simp [ha x hx]
    have htw2 : rest.takeWhile (fun x => decide (x.type = diff_line_type_t.added)) = [] := by
      cases rest with
      | nil => rfl
      | cons x t =>
        exact List.takeWhile_cons_of_neg (by simp [(hrest x rfl).2])
    have hdw2 : rest.dropWhile (fun x => decide (x.type = diff_line_type_t.added)) = rest := by
      cases rest with
      | nil => rfl
      | cons x t =>
        exact List.dropWhile_cons_of_neg (by simp [(hrest x rfl).2])
    have htw1 : (as ++ rest).takeWhile
        (fun x => decide (x.type = diff_line_type_t.removed)) = [] := by
      cases as with
      | nil =>
        cases rest with
        | nil => rfl
        | cons x t =>
          exact List.takeWhile_cons_of_neg (by simp [(hrest x rfl).1])
      | cons a t =>
        rw [List.cons_append]
        exact List.takeWhile_cons_of_neg
          (by simp [ha a (List.mem_cons_self a t)])
    have hdw1 : (as ++ rest).dropWhile
        (fun x => decide (x.type = diff_line_type_t.removed)) = as ++ rest := by
      cases as with
      | nil =>
        cases rest with
        | nil => rfl
        | cons x t =>
          exact List.dropWhile_cons_of_neg (by simp [(hrest x rfl).1])
      | cons a t =>
        rw [List.cons_append]
        exact List.dropWhile_cons_of_neg
          (by simp [ha a (List.mem_cons_self a t)])
    have E1 : (rs' ++ (as ++ rest)).takeWhile
        (fun x => decide (x.type = diff_line_type_t.removed)) = rs' := by
      rw [List.takeWhile_append_of_pos hpr, htw1, List.append_nil]
    have E2 : (rs' ++ (as ++ rest)).dropWhile
        (fun x => decide (x.type = diff_line_type_t.removed)) = as ++ rest := by
      rw [List.dropWhile_append_of_pos hpr, hdw1]
    have E3 : (as ++ rest).takeWhile
        (fun x => decide (x.type = diff_line_type_t.added)) = as := by
      rw [List.takeWhile_append_of_pos hqa, htw2, List.append_nil]
    have E4 : (as ++ rest).dropWhile
        (fun x => decide (x.type = diff_line_type_t.added)) = rest := by
      rw [List.dropWhile_append_of_pos hqa, hdw2]
    rw [show (r0 :: rs') ++ as ++ rest = r0 :: (rs' ++ (as ++ rest)) by
      simp [List.cons_append]]
    rw [pairRows]
    rw [if_pos (hr r0 (List.mem_cons_self r0 rs'))]
    simp only [E1, E2, E3, E4]
  · -- both sides populated: modified
    intro p hp hq
    have t1 : (rs.get ⟨p, hp⟩).left_content.take 1023 = (rs.get ⟨p, hp⟩).left_content :=
      List.take_of_length_le (hlen1 _ (List.get_mem rs p hp))
    have t2 : (as.get ⟨p, hq⟩).right_content.take 1023 = (as.get ⟨p, hq⟩).right_content :=
      List.take_of_length_le (hlen2 _ (List.get_mem as p hq))
    simp [combineAt, hp, hq, t1, t2, dlZero]
    exact ⟨hlen1 _ (List.getElem_mem hp), hlen2 _ (List.getElem_mem hq)⟩
  · -- left only: removed
    intro p hp hA
    have hq : ¬ p < as.length := by omega
    have t1 : (rs.get ⟨p, hp⟩).left_content.take 1023 = (rs.get ⟨p, hp⟩).left_content :=
      List.take_of_length_le (hlen1 _ (List.get_mem rs p hp))
    simp [combineAt, hp, hq, t1, dlZero]
    exact hlen1 _ (List.getElem_mem hp)
  · -- right only: added
    intro p hq hR
    have hp : ¬ p < rs.length := by omega
    have t2 : (as.get ⟨p, hq⟩).right_content.take 1023 = (as.get ⟨p, hq⟩).right_content :=
      List.take_of_length_le (hlen2 _ (List.get_mem as p hq))
    simp [combineAt, hp, hq, t2, dlZero]
    exact hlen2 _ (List.getElem_mem hq)

/-- C3 witness: the pairing theorem applied to one concrete removed line
followed by one concrete added line. -/
theorem c3_witness :
    pairRows ([⟨.removed, 1, -1, ['a'], []⟩] ++ [⟨.added, -1, 1, [], ['b']⟩] ++ []) =
      (List.range
          (max ([⟨.removed, 1, -1, ['a'], []⟩] : List diff_line_t).length
            ([⟨.added, -1, 1, [], ['b']⟩] : List diff_line_t).length)).map
        (combineAt [⟨.removed, 1, -1, ['a'], []⟩] [⟨.added, -1, 1, [], ['b']⟩]) ++
        pairRows [] :=
  (c3_pairing_runs [⟨.removed, 1, -1, ['a'], []⟩] [⟨.added, -1, 1, [], ['b']⟩] []
    (by decide) (by decide) (by decide) (by simp) (by decide) (by decide)).1

/-! ## Parser invariants -/

theorem beginsHeadEq {p q : Char} {ps qs l : List Char}
    (h1 : begins (p :: ps) l = true) (h2 : begins (q :: qs) l = true) : p = q := by
  cases l with
  | nil => simp [begins] at h1
  | cons c t =>
    unfold begins at h1 h2
    simp only [Bool.and_eq_true, decide_eq_true_eq] at h1 h2
    rw [h1.1, h2.1]

/-- Per-line record invariant established by the parser (used for the line
classification claims and the per-column storage bound): a context row
carries equal content on both sides and carries the running counters,
which are positive whenever the enclosing hunk's start fields are; a
removed row carries the right-side sentinel `-1`; an added row carries the
left-side sentinel `-1`; both stored contents fit in the
`char[1024]` buffers. -/
def lineOk (h : diff_hunk_t) (l : diff_line_t) : Prop :=
  (l.type = diff_line_type_t.context → l.left_content = l.right_content ∧
    (1 ≤ h.old_start → 1 ≤ h.new_start → 1 ≤ l.left_num ∧ 1 ≤ l.right_num)) ∧
  (l.type = diff_line_type_t.removed → l.right_num = -1) ∧
  (l.type = diff_line_type_t.added → l.left_num = -1) ∧
  l.left_content.length ≤ 1023 ∧ l.right_content.length ≤ 1023

/-- Parser-state invariant: every line of every finished hunk satisfies
`lineOk`, and for the current hunk additionally the running counters are
at least the hunk's start fields. -/
def stOk (st : PState) : Prop :=
  (∀ h ∈ st.diff.hunks, ∀ l ∈ h.lines, lineOk h l) ∧
  (∀ h, st.curr = some h → ((∀ l ∈ h.lines, lineOk h l) ∧
    h.old_start ≤ st.left_num ∧ h.new_start ≤ st.right_num))

theorem processLineInv (st : PState) (l : List Char) (hst : stOk st) :
    stOk (processLine st l) := by
  obtain ⟨hfin, hcur⟩ := hst
  unfold processLine
  split_ifs with h1 h2 h2a h3 h3a h4
  · exact ⟨hfin, hcur⟩
  · exact ⟨hfin, hcur⟩
  · exact ⟨hfin, hcur⟩
  · exact ⟨hfin, hcur⟩
  · exact ⟨hfin, hcur⟩
  · -- a new hunk starts
    constructor
    · intro h hh l' hl'
      rcases List.mem_append.mp hh with hh | hh
      · exact hfin h hh l' hl'
      · cases hcurr : st.curr with
        | none => rw [hcurr] at hh; simp at hh
        | some hc =>
          rw [hcurr] at hh
          simp only [Option.toList_some, List.mem_singleton] at hh
          subst hh
          exact (hcur _ hcurr).1 l' hl'
    · intro h hh
      simp only [Option.some.injEq] at hh
      subst hh
      refine ⟨?_, le_refl _, le_refl _⟩
      intro l' hl'
      simp [parseHunkChars] at hl'
  · -- content line while a current hunk may exist
    cases hcurr : st.curr with
    | none => simpa [hcurr] using ⟨hfin, hcur⟩
    | some h =>
      obtain ⟨hlines, hls, hrs⟩ := hcur h hcurr
      cases l with
      | nil => simpa [hcurr] using ⟨hfin, hcur⟩
      | cons p c0 =>
        simp only [hcurr]
        split_ifs with hp1 hp2 hp3
        · -- removed line
          constructor
          · intro h' hh' l' hl'; exact hfin h' hh' l' hl'
          · intro h' hh'
            simp only [Option.some.injEq] at hh'
            subst hh'
            refine ⟨?_, by simp; omega, by simp; omega⟩
            intro l' hl'
            rcases List.mem_append.mp hl' with hl' | hl'
            · exact hlines l' hl'
            · rw [List.mem_singleton] at hl'
              subst hl'
              refine ⟨by intro hcon; simp at hcon, fun _ => rfl,
                by intro hcon; simp at hcon, ?_, by simp⟩
              rw [List.length_take]; omega
        · -- added line
          constructor
          · intro h' hh' l' hl'; exact hfin h' hh' l' hl'
          · intro h' hh'
            simp only [Option.some.injEq] at hh'
            subst hh'
            refine ⟨?_, by simp; omega, by simp; omega⟩
            intro l' hl'
            rcases List.mem_append.mp hl' with hl' | hl'
            · exact hlines l' hl'
            · rw [List.mem_singleton] at hl'
              subst hl'
              refine ⟨by intro hcon; simp at hcon,
                by intro hcon; simp at hcon, fun _ => rfl, by simp, ?_⟩
              rw [List.length_take]; omega
        · -- context line
          constructor
          · intro h' hh' l' hl'; exact hfin h' hh' l' hl'
          · intro h' hh'
            simp only [Option.some.injEq] at hh'
            subst hh'
            refine ⟨?_, by simp; omega, by simp; omega⟩
            intro l' hl'
            rcases List.mem_append.mp hl' with hl' | hl'
            · exact hlines l' hl'
            · rw [List.mem_singleton] at hl'
              subst hl'
              refine ⟨fun _ => ⟨rfl, fun ho hn => by simp at ho hn ⊢; omega⟩,
                by intro hcon; simp at hcon,
                by intro hcon; simp at hcon, ?_, ?_⟩ <;>
                (rw [List.length_take]; omega)
        · exact ⟨hfin, hcur⟩

theorem processLinesInv (ls : List (List Char)) (st : PState) (hst : stOk st) :
    stOk (processLines st ls) := by
  induction ls generalizing st with
  | nil => exact hst
  | cons l ls ih => exact ih (processLine st l) (processLineInv st l hst)

theorem parsedLinesOk (s : String) (d : file_diff_t)
    (hd : parse_unified_diff s = some d) :
    ∀ h ∈ d.hunks, ∀ l ∈ h.lines, lineOk h l := by
  unfold parse_unified_diff at hd
  split_ifs at hd
  simp only [Option.some.injEq] at hd
  subst hd
  have hinv := processLinesInv (diffLines s) initPState
    ⟨by intro h hh; simp [initPState] at hh, by intro h hh; simp [initPState] at hh⟩
  intro h hh l hl
  rcases List.mem_append.mp hh with hh | hh
  · exact hinv.1 h hh l hl
  · cases hcurr : (processLines initPState (diffLines s)).curr with
    | none => rw [hcurr] at hh; simp at hh
    | some hc =>
      rw [hcurr] at hh
      simp only [Option.toList_some, List.mem_singleton] at hh
      subst hh
      exact (hinv.2 _ hcurr).1 l hl

/-- C5 (amended): in every parsed `file_diff_t`, a Context line carries
equal content on both sides, and both its line numbers are positive
whenever the enclosing hunk's `old_start` and `new_start` are positive; a
Removed line's right line number is the sentinel `-1` (never set); an
Added line's left line number is the sentinel `-1`.  The unconditional
positivity of the original claim fails when a hunk header carries start
`0` (as `git` emits for new or deleted files): see `c5_counterexample`. -/
theorem c5_line_invariants (s : String) (h : diff_hunk_t) (hh : h ∈ parsedHunks s)
    (l : diff_line_t) (hl : l ∈ h.lines) :
    (l.type = diff_line_type_t.context → l.left_content = l.right_content ∧
      (1 ≤ h.old_start → 1 ≤ h.new_start → 1 ≤ l.left_num ∧ 1 ≤ l.right_num)) ∧
    (l.type = diff_line_type_t.removed → l.right_num = -1) ∧
    (l.type = diff_line_type_t.added → l.left_num = -1) := by
  unfold parsedHunks at hh
  cases hp : parse_unified_diff s with
  | none => rw [hp] at hh; simp at hh
  | some d =>
    rw [hp] at hh
    have := parsedLinesOk s d hp h hh l hl
    exact ⟨this.1, this.2.1, this.2.2.1⟩

/-- C5 witness: the amended invariant applied to the context line parsed
from `"@@ -1 +1 @@\n x"`. -/
theorem c5_witness :
    (diff_line_t.type ⟨.context, 1, 1, ['x'], ['x']⟩ = diff_line_type_t.context →
      diff_line_t.left_content ⟨.context, 1, 1, ['x'], ['x']⟩ =
          diff_line_t.right_content ⟨.context, 1, 1, ['x'], ['x']⟩ ∧
        (1 ≤ diff_hunk_t.old_start ⟨1, 1, 1, 1,
            ['@', '@', ' ', '-', '1', ' ', '+', '1', ' ', '@', '@'],
            [⟨.context, 1, 1, ['x'], ['x']⟩]⟩ →
          1 ≤ diff_hunk_t.new_start ⟨1, 1, 1, 1,
            ['@', '@', ' ', '-', '1', ' ', '+', '1', ' ', '@', '@'],
            [⟨.context, 1, 1, ['x'], ['x']⟩]⟩ →
          1 ≤ diff_line_t.left_num ⟨.context, 1, 1, ['x'], ['x']⟩ ∧
            1 ≤ diff_line_t.right_num ⟨.context, 1, 1, ['x'], ['x']⟩)) ∧
    (diff_line_t.type ⟨.context, 1, 1, ['x'], ['x']⟩ = diff_line_type_t.removed →
      diff_line_t.right_num ⟨.context, 1, 1, ['x'], ['x']⟩ = -1) ∧
    (diff_line_t.type ⟨.context, 1, 1, ['x'], ['x']⟩ = diff_line_type_t.added →
      diff_line_t.left_num ⟨.context, 1, 1, ['x'], ['x']⟩ = -1) :=
  c5_line_invariants "@@ -1 +1 @@\n x"
    ⟨1, 1, 1, 1, ['@', '@', ' ', '-', '1', ' ', '+', '1', ' ', '@', '@'],
      [⟨.context, 1, 1, ['x'], ['x']⟩]⟩
    (by decide) ⟨.context, 1, 1, ['x'], ['x']⟩ (by decide)

set_option maxRecDepth 10000 in
/-- C10: every `diff_line_t` stores at most 1023 bytes per column — the
parser copies sanitized content through `strncpy(..., 1023)` into the
zero-initialised `char[1024]` buffers, silently truncating longer content
to its first 1023 bytes; no error is reported and parsing continues.  The
second conjunct evaluates the parser loop on a `'-'` content line of 1500
`'a'` bytes: the stored left column is exactly the first 1023 bytes and
the line record is otherwise intact. -/
theorem c10_truncation :
    (∀ (s : String) (l : diff_line_t), l ∈ allParsedLines s →
      l.left_content.length ≤ 1023 ∧ l.right_content.length ≤ 1023) ∧
    (processLines initPState
        [['@', '@', ' ', '-', '1', ' ', '+', '1', ' ', '@', '@'],
          '-' :: List.replicate 1500 'a']).curr =
      some { old_start := 1, old_count := 1, new_start := 1, new_count := 1,
             header := ['@', '@', ' ', '-', '1', ' ', '+', '1', ' ', '@', '@'],
             lines := [{ type := .removed, left_num := 1, right_num := -1,
                         left_content := List.replicate 1023 'a',
                         right_content := [] }] } := by
  constructor
  · intro s l hl
    unfold allParsedLines at hl
    cases hp : parse_unified_diff s with
    | none => rw [hp] at hl; simp at hl
    | some d =>
      rw [hp] at hl
      rw [List.mem_flatMap] at hl
      obtain ⟨h, hh, hl⟩ := hl
      have := parsedLinesOk s d hp h hh l hl
      exact ⟨this.2.2.2.1, this.2.2.2.2⟩
  · decide

/-- C10 witness: the bound applied to the removed line parsed from
`"@@ -1 +1 @@\n-abc"`. -/
theorem c10_witness :
    (diff_line_t.left_content ⟨.removed, 1, -1, ['a', 'b', 'c'], []⟩).length ≤ 1023 ∧
      (diff_line_t.right_content ⟨.removed, 1, -1, ['a', 'b', 'c'], []⟩).length ≤ 1023 :=
  c10_truncation.1 "@@ -1 +1 @@\n-abc" ⟨.removed, 1, -1, ['a', 'b', 'c'], []⟩ (by decide)

/-! ## Flag and counting lemmas for the parser loop -/

theorem beginsFalseOfHead {l : List Char} {p q : Char} {ps qs : List Char}
    (h : begins (p :: ps) l = true) (hne : p ≠ q) : begins (q :: qs) l = false := by
  by_contra hcon
  rw [Bool.not_eq_false] at hcon
  exact hne (beginsHeadEq h hcon)

theorem processLineFlag (st : PState) (l : List Char) :
    (processLine st l).curr.isSome = (st.curr.isSome || begins hdrHunk l) := by
  unfold processLine
  split_ifs with h1 h2 h2a h3 h3a h4
  · rcases Bool.or_eq_true_iff.mp h1 with h1 | h1
    · have : begins hdrHunk l = false := by
        simp only [hdrDiffGit] at h1
        simp only [hdrHunk]
        exact beginsFalseOfHead h1 (by decide)
      simp [this]
    · have : begins hdrHunk l = false := by
        simp only [hdrIndex] at h1
        simp only [hdrHunk]
        exact beginsFalseOfHead h1 (by decide)
      simp [this]
  · have : begins hdrHunk l = false := by
      simp only [hdrOld] at h2
      simp only [hdrHunk]
      exact beginsFalseOfHead h2 (by decide)
    simp [this]
  · have : begins hdrHunk l = false := by
      simp only [hdrOld] at h2
      simp only [hdrHunk]
      exact beginsFalseOfHead h2 (by decide)
    simp [this]
  · have : begins hdrHunk l = false := by
      simp only [hdrNew] at h3
      simp only [hdrHunk]
      exact beginsFalseOfHead h3 (by decide)
    simp [this]
  · have : begins hdrHunk l = false := by
      simp only [hdrNew] at h3
      simp only [hdrHunk]
      exact beginsFalseOfHead h3 (by decide)
    simp [this]
  · simp [h4]
  · have hh : begins hdrHunk l = false := by
      rw [Bool.not_eq_true] at h4; exact h4
    cases hcurr : st.curr with
    | none => simp [hcurr, hh]
    | some h =>
      cases l with
      | nil => simp [hcurr, hh]
      | cons p c0 =>
        simp only [hcurr]
        split_ifs <;> simp [hcurr, hh]

theorem processLineCounts (st : PState) (l : List Char)
    (hok : st.curr.isSome = true → begins hdrNew l = false ∧ begins hdrOld l = false) :
    (processLine st l).diff.additions =
      st.diff.additions + (if st.curr.isSome && begins ['+'] l then 1 else 0) ∧
    (processLine st l).diff.deletions =
      st.diff.deletions + (if st.curr.isSome && begins ['-'] l then 1 else 0) := by
  by_cases h1 : (begins hdrDiffGit l || begins hdrIndex l) = true
  · rcases Bool.or_eq_true_iff.mp h1 with h1' | h1'
    · have hp : begins ['+'] l = false := by
        simp only [hdrDiffGit] at h1'; exact beginsFalseOfHead h1' (by decide)
      have hm : begins ['-'] l = false := by
        simp only [hdrDiffGit] at h1'; exact beginsFalseOfHead h1' (by decide)
      simp [processLine, h1, hp, hm]
    · have hp : begins ['+'] l = false := by
        simp only [hdrIndex] at h1'; exact beginsFalseOfHead h1' (by decide)
      have hm : begins ['-'] l = false := by
        simp only [hdrIndex] at h1'; exact beginsFalseOfHead h1' (by decide)
      simp [processLine, h1, hp, hm]
  · by_cases h2 : begins hdrOld l = true
    · have hsome : st.curr.isSome = false := by
        by_contra hcon
        rw [Bool.not_eq_false] at hcon
        exact absurd h2 (by simp [(hok hcon).2])
      simp only [processLine, h1, h2, if_true, if_false, Bool.false_eq_true, hsome,
        Bool.false_and]
      split_ifs <;> simp
    · by_cases h3 : begins hdrNew l = true
      · have hsome : st.curr.isSome = false := by
          by_contra hcon
          rw [Bool.not_eq_false] at hcon
          exact absurd h3 (by simp [(hok hcon).1])
        simp only [processLine, h1, h2, h3, if_true, if_false, Bool.false_eq_true, hsome,
          Bool.false_and]
        split_ifs <;> simp
      · by_cases h4 : begins hdrHunk l = true
        · have hp : begins ['+'] l = false := by
            simp only [hdrHunk] at h4; exact beginsFalseOfHead h4 (by decide)
          have hm : begins ['-'] l = false := by
            simp only [hdrHunk] at h4; exact beginsFalseOfHead h4 (by decide)
          simp [processLine, h1, h2, h3, h4, hp, hm]
        · cases hcurr : st.curr with
          | none => simp [processLine, h1, h2, h3, h4, hcurr]
          | some h =>
            cases l with
            | nil => simp [processLine, h1, h2, h3, h4, hcurr, begins]
            | cons p c0 =>
              by_cases hp1 : p = '-'
              · subst hp1
                have h2' : begins ['-', '-'] c0 = false := by
                  rw [Bool.not_eq_true] at h2
                  simpa [hdrOld, begins] using h2
                simp [processLine, h1, h2, h3, h4, hcurr, begins, h2']
              · by_cases hp2 : p = '+'
                · subst hp2
                  have h3' : begins ['+', '+'] c0 = false := by
                    rw [Bool.not_eq_true] at h3
                    simpa [hdrNew, begins] using h3
                  simp [processLine, h1, h2, h3, h4, hcurr, begins, h3']
                · by_cases hp3 : p = ' '
                  · subst hp3
                    simp [processLine, h1, h2, h3, h4, hcurr, begins]
                  · have e1 : begins ['+'] (p :: c0) = false := by
                      simp [begins]
                      intro hcon; exact absurd hcon.symm hp2
                    have e2 : begins ['-'] (p :: c0) = false := by
                      simp [begins]
                      intro hcon; exact absurd hcon.symm hp1
                    simp [processLine, h1, h2, h3, h4, hcurr, hp1, hp2, hp3, e1, e2]

theorem countsFold :
    ∀ (ls : List (List Char)) (st : PState),
      hunkContentOk st.curr.isSome ls = true →
      (processLines st ls).diff.additions =
          st.diff.additions + countPlus st.curr.isSome ls ∧
        (processLines st ls).diff.deletions =
          st.diff.deletions + countMinus st.curr.isSome ls := by
  intro ls
  induction ls with
  | nil => intro st _; simp [processLines, countPlus, countMinus]
  | cons l ls ih =>
    intro st hok
    unfold hunkContentOk at hok
    rw [Bool.and_eq_true] at hok
    obtain ⟨hok1, hok2⟩ := hok
    have hok1' : st.curr.isSome = true → begins hdrNew l = false ∧ begins hdrOld l = false := by
      intro hs
      rw [hs] at hok1
      simpa using hok1
    have hflag := processLineFlag st l
    have hcounts := processLineCounts st l hok1'
    have hih := ih (processLine st l) (by rw [hflag]; exact hok2)
    unfold processLines at hih ⊢
    rw [List.foldl_cons]
    unfold countPlus countMinus
    rw [hflag] at hih
    constructor
    · rw [hih.1, hcounts.1]; omega
    · rw [hih.2, hcounts.2]; omega

/-- C4 (amended): for every non-empty input in which no content line
inside a hunk begins with `"+++"` or `"---"`, and no line reaching the
sanitize pass carries a tab after its prefix byte, the parsed
`file_diff_t` has `additions` equal to the number of `'+'`-prefixed lines
after the first `@@` marker and `deletions` equal to the number of
`'-'`-prefixed such lines.  The original unconditional claim fails
because the path-marker branches are tested before the content branch,
so a `'-'` content line whose content begins `"--"` (respectively `'+'`
and `"++"`) is consumed as a path marker and not counted: see
`c4_counterexample`.  The tab-free side condition restricts the claim to
the domain where the in-place C sanitize pass is well defined and equal
to its model (see the fidelity note on `sanitizeChars` and
`sanitizeCharsTabFree`); on a tab-carrying content line the C pass
overruns its buffer and the parse does not return, so no count is
produced at all. -/
theorem c4_counts (s : String) (hne : s ≠ "")
    (hok : hunkContentOk false (diffLines s) = true)
    (htab : hunkContentTabFree false (diffLines s) = true) :
    (parse_unified_diff s).map (fun d => (d.additions, d.deletions)) =
      some (countPlus false (diffLines s), countMinus false (diffLines s)) := by
  unfold parse_unified_diff
  rw [if_neg hne]
  have hc := countsFold (diffLines s) initPState hok
  simp only [Option.map_some']
  have e1 : initPState.diff.additions = 0 := rfl
  have e2 : initPState.diff.deletions = 0 := rfl
  rw [hc.1, hc.2, e1, e2]
  simp [initPState]

/-- C4 witness: the amended counting theorem applied to a concrete
well-formed diff with one addition and one deletion. -/
theorem c4_witness :
    (parse_unified_diff "@@ -1,2 +1,2 @@\n-old\n+new\n ctx").map
        (fun d => (d.additions, d.deletions)) =
      some (countPlus false (diffLines "@@ -1,2 +1,2 @@\n-old\n+new\n ctx"),
        countMinus false (diffLines "@@ -1,2 +1,2 @@\n-old\n+new\n ctx")) :=
  c4_counts "@@ -1,2 +1,2 @@\n-old\n+new\n ctx" (by decide) (by decide) (by decide)

/-! ## No-marker inputs (C1) -/

theorem processLineNoHunk (st : PState) (l : List Char)
    (hnh : begins hdrHunk l = false) (hcn : st.curr = none) :
    (processLine st l).curr = none ∧
      (processLine st l).diff.hunks = st.diff.hunks ∧
      (processLine st l).diff.additions = st.diff.additions ∧
      (processLine st l).diff.deletions = st.diff.deletions := by
  by_cases h1 : (begins hdrDiffGit l || begins hdrIndex l) = true
  · simp [processLine, h1, hcn]
  · by_cases h2 : begins hdrOld l = true
    · simp only [processLine, h1, h2, if_true, if_false, Bool.false_eq_true]
      split_ifs <;> simp [hcn]
    · by_cases h3 : begins hdrNew l = true
      · simp only [processLine, h1, h2, h3, if_true, if_false, Bool.false_eq_true]
        split_ifs <;> simp [hcn]
      · have h4 : ¬ begins hdrHunk l = true := by simp [hnh]
        simp [processLine, h1, h2, h3, h4, hcn]

theorem noHunkFold :
    ∀ (ls : List (List Char)) (st : PState),
      (∀ l ∈ ls, begins hdrHunk l = false) → st.curr = none →
      (processLines st ls).curr = none ∧
        (processLines st ls).diff.hunks = st.diff.hunks ∧
        (processLines st ls).diff.additions = st.diff.additions ∧
        (processLines st ls).diff.deletions = st.diff.deletions := by
  intro ls
  induction ls with
  | nil => intro st _ hcn; exact ⟨hcn, rfl, rfl, rfl⟩
  | cons l ls ih =>
    intro st hall hcn
    have hstep := processLineNoHunk st l (hall l (List.mem_cons_self l ls)) hcn
    have hih := ih (processLine st l) (fun x hx => hall x (List.mem_cons_of_mem l hx))
      hstep.1
    unfold processLines at hih ⊢
    rw [List.foldl_cons]
    exact ⟨hih.1, hih.2.1.trans hstep.2.1, hih.2.2.1.trans hstep.2.2.1,
      hih.2.2.2.trans hstep.2.2.2⟩

/-- C1 (amended): for every non-empty input text with no line beginning
`"@@"`, the parser does NOT return "no structured result": it returns a
`file_diff_t` with zero hunks and zero totals, and the compositor emits
the header and footer decoration — with zero addition/deletion totals, no
hunk output, and whatever path fields any `---`/`+++` lines of the input
set — rather than echoing the raw input.  (The raw-text fallback is taken
only when the parser returns no result, which for non-empty input happens
only on allocation failure, not for marker-free text: see
`c1_counterexample`.  The path-marker branches run independently of
hunks, so the rendered paths need not be empty; the theorem therefore
asserts the rendered shape with existentially quantified paths.) -/
theorem c1_no_marker_renders_header (s : String) (hne : s ≠ "")
    (hnomark : ∀ l ∈ diffLines s, begins hdrHunk l = false) :
    (parse_unified_diff s).map (fun d => (d.hunks, d.additions, d.deletions)) =
        some ([], 0, 0) ∧
      show_side_by_side_diff (some s) ≠ RenderOut.raw s ∧
      ∃ op np, show_side_by_side_diff (some s) = RenderOut.rendered op np 0 0 [] := by
  have hfold := noHunkFold (diffLines s) initPState hnomark rfl
  have hparse : parse_unified_diff s =
      some { (processLines initPState (diffLines s)).diff with
             hunks := (processLines initPState (diffLines s)).diff.hunks ++
               (processLines initPState (diffLines s)).curr.toList } := by
    unfold parse_unified_diff
    rw [if_neg hne]
  have hhunks : (processLines initPState (diffLines s)).diff.hunks ++
      (processLines initPState (diffLines s)).curr.toList = [] := by
    rw [hfold.1, hfold.2.1]
    rfl
  have hshow : show_side_by_side_diff (some s) =
      RenderOut.rendered (processLines initPState (diffLines s)).diff.old_path
        (processLines initPState (diffLines s)).diff.new_path 0 0 [] := by
    rw [show show_side_by_side_diff (some s) =
        (if s = "" then RenderOut.noDiff
         else
           match parse_unified_diff s with
           | none => RenderOut.raw s
           | some d =>
             RenderOut.rendered d.old_path d.new_path d.additions d.deletions
               (d.hunks.map (fun h => (h.header, pairRows h.lines)))) from rfl]
    rw [if_neg hne, hparse]
    simp only [hhunks, hfold.2.2.1, hfold.2.2.2, List.map_nil]
    rfl
  refine ⟨?_, ?_, ?_⟩
  · rw [hparse]
    simp only [Option.map_some', hhunks, hfold.2.2.1, hfold.2.2.2]
    rfl
  · rw [hshow]
    intro hcon
    exact RenderOut.noConfusion hcon
  · exact ⟨_, _, hshow⟩

/-- C1 witness: the amended theorem applied to the marker-free input
`"just text"`. -/
theorem c1_witness :
    (parse_unified_diff "just text").map (fun d => (d.hunks, d.additions, d.deletions)) =
        some ([], 0, 0) ∧
      show_side_by_side_diff (some "just text") ≠ RenderOut.raw "just text" ∧
      ∃ op np, show_side_by_side_diff (some "just text") =
        RenderOut.rendered op np 0 0 [] :=
  c1_no_marker_renders_header "just text" (by decide) (by decide)
